import Mathlib

/-!
Verification development for the spider package: a shallow embedding of the
redirect-resolution heuristics (`scrapeDocument.ts`), the DOM link extractors
(`adapters/dom.ts`, `scrapers/tree.ts`) and the tree-expansion engine
(`TreeScraper`), together with theorems settling the specification claims.

Strings are modelled through their character lists.  JavaScript string
primitives (`includes`, `startsWith`, `endsWith`, `replace`, `split`,
`trim`, `toLowerCase`) are re-implemented below by structural recursion so
every definition evaluates inside the kernel.
-/

/-- `leadsWith p l` : `p` occurs at the start of `l`
(model of JavaScript `String.prototype.startsWith` on char lists). -/
def leadsWith : List Char → List Char → Bool
  | [], _ => true
  | _ :: _, [] => false
  | p :: ps, c :: cs => p == c && leadsWith ps cs

/-- `hasSub p l` : `p` occurs somewhere inside `l`
(model of JavaScript `String.prototype.includes`). -/
def hasSub (p : List Char) : List Char → Bool
  | [] => p.isEmpty
  | c :: rest => leadsWith p (c :: rest) || hasSub p rest

/-- JavaScript `s.includes(sub)`. -/
def strIncludes (s sub : String) : Bool := hasSub sub.data s.data

/-- JavaScript `s.startsWith(p)`. -/
def strStartsWith (s p : String) : Bool := leadsWith p.data s.data

/-- JavaScript `s.endsWith(p)`. -/
def strEndsWith (s p : String) : Bool := leadsWith p.data.reverse s.data.reverse

/-- JavaScript `s.toLowerCase()` (ASCII range, which is all the sources use). -/
def strToLower (s : String) : String := ⟨s.data.map Char.toLower⟩

/-- One left-to-right, non-overlapping global replacement pass
(model of JavaScript `s.replace(/pat/g, repl)` for a literal pattern),
fuelled so that it reduces by `rfl`.  The fuel is the input length. -/
def replaceFuel (pat repl : List Char) : Nat → List Char → List Char
  | 0, l => l
  | _ + 1, [] => []
  | fuel + 1, c :: rest =>
    if !pat.isEmpty && leadsWith pat (c :: rest) then
      repl ++ replaceFuel pat repl fuel ((c :: rest).drop pat.length)
    else
      c :: replaceFuel pat repl fuel rest

/-- JavaScript `s.replace(/pat/g, repl)` for a literal pattern. -/
def replaceAllStr (s pat repl : String) : String :=
  ⟨replaceFuel pat.data repl.data s.data.length s.data⟩

/-- The entity decoding performed on every extracted href in
`scrapeDocument.ts`: five sequential global replaces
(`&amp;` `&quot;` `&#039;` `&lt;` `&gt;`), nothing else. -/
def decodeEntities (s : String) : String :=
  let s1 := replaceAllStr s "&amp;" "&"
  let s2 := replaceAllStr s1 "&quot;" "\""
  let s3 := replaceAllStr s2 "&#039;" (String.mk [Char.ofNat 39])
  let s4 := replaceAllStr s3 "&lt;" "<"
  replaceAllStr s4 "&gt;" ">"

/-- Whitespace for the model of JavaScript `String.prototype.trim`. -/
def isWsChar (c : Char) : Bool :=
  c == Char.ofNat 32 || c == Char.ofNat 9 || c == Char.ofNat 10 || c == Char.ofNat 13

/-- JavaScript `s.trim()` (restricted to the common whitespace characters). -/
def strTrim (s : String) : String :=
  ⟨((s.data.dropWhile isWsChar).reverse.dropWhile isWsChar).reverse⟩

/-- JavaScript `s.split(' ')`: split on every single space character. -/
def splitSp : List Char → List (List Char)
  | [] => [[]]
  | c :: rest =>
    match splitSp rest with
    | [] => [[]]
    | h :: t => if c == Char.ofNat 32 then [] :: h :: t else (c :: h) :: t

/-- `classes.split(' ').filter((c) => c.trim())` from the link extractors:
split the class attribute on spaces and keep the (untrimmed) tokens that are
non-empty after trimming. -/
def splitClasses (s : String) : List String :=
  ((splitSp s.data).map String.mk).filter (fun c => strTrim c ≠ "")

/-- First occurrence split: `splitFirstSub pat l = some (before, after)` when
`l = before ++ pat ++ after` at the leftmost occurrence of `pat`. -/
def splitFirstSub (pat : List Char) : List Char → Option (List Char × List Char)
  | [] => none
  | c :: rest =>
    if leadsWith pat (c :: rest) then some ([], (c :: rest).drop pat.length)
    else
      match splitFirstSub pat rest with
      | some (a, b) => some (c :: a, b)
      | none => none

/-- Drop `pat` from the end of `l` when it is a suffix, else keep `l`. -/
def stripSuffixIf (l pat : List Char) : List Char :=
  if leadsWith pat.reverse l.reverse then l.take (l.length - pat.length) else l

/-- Host part of what follows `scheme://`: up to the first `/`, `?` or `#`,
lowercased. -/
def hostOf (rest : List Char) : List Char :=
  (rest.takeWhile fun c =>
    c != Char.ofNat 47 && c != Char.ofNat 63 && c != Char.ofNat 35).map Char.toLower

/-- Model of the WHATWG origin (`protocol + '//' + host`, as assembled by the
extractors via the builtin `new URL(url)`): scheme and host lowercased,
default port stripped.  Restricted to http(s) URLs, the only scheme family
the sources resolve against; other inputs are returned unchanged (the real
builtin would throw on malformed input). -/
def urlOrigin (url : String) : String :=
  if leadsWith "https://".data url.data then
    "https://" ++ String.mk (stripSuffixIf (hostOf (url.data.drop 8)) ":443".data)
  else if leadsWith "http://".data url.data then
    "http://" ++ String.mk (stripSuffixIf (hostOf (url.data.drop 7)) ":80".data)
  else url

/-- The URL is a well-formed-enough http(s) URL for origin resolution. -/
def isHttpUrl (url : String) : Bool :=
  leadsWith "https://".data url.data || leadsWith "http://".data url.data

/-!  ## The href regex scanner

All landing-page extractors in `scrapeDocument.ts` search the HTML with
regexes of the shape `/href=["']( ... )["']/i`: an attribute opener, a quote,
a quote-free capture satisfying a pattern, and a closing quote.  Because the
capture class excludes both quote characters, at any candidate start the only
possible capture is the maximal quote-free run after the opening quote, and
the pattern reduces to a predicate on that run.  `scanHref` mirrors the
regex engine's leftmost-match search. -/

/-- Is `c` one of the two quote characters `"` `'`? -/
def isQuoteChar (c : Char) : Bool := c == Char.ofNat 34 || c == Char.ofNat 39

/-- Try to match `href=["']run["']` at the very start of `l`; on success
return the capture `run` when it satisfies `p`. -/
def tryHrefAt (p : List Char → Bool) (l : List Char) : Option (List Char) :=
  if (l.take 5).map Char.toLower = "href=".data then
    match l.drop 5 with
    | [] => none
    | q :: rest =>
      if isQuoteChar q then
        let run := rest.takeWhile (fun c => !isQuoteChar c)
        match rest.drop run.length with
        | [] => none
        | _ :: _ => if p run then some run else none
      else none
  else none

/-- Leftmost match of `href=["'](run)["']` with capture predicate `p`. -/
def scanHref (p : List Char → Bool) : List Char → Option (List Char)
  | [] => none
  | c :: rest =>
    match tryHrefAt p (c :: rest) with
    | some r => some r
    | none => scanHref p rest

/-- `wpdmdl=` (case-insensitively) followed by a digit occurs at the start. -/
def wpdmAt (l : List Char) : Bool :=
  leadsWith "wpdmdl=".data (l.map Char.toLower) &&
    (match l.drop 7 with
     | d :: _ => d.isDigit
     | [] => false)

/-- The capture predicate of `/href=["']([^"']*wpdmdl=\d+[^"']*)["']/i`:
the run contains `wpdmdl=` followed by at least one digit. -/
def hasWpdmdlDigit : List Char → Bool
  | [] => false
  | c :: rest => wpdmAt (c :: rest) || hasWpdmdlDigit rest

/-- The capture predicate of `/href=["']([^"']*\.pdf[^"']*)["']/i`:
the run contains `.pdf` case-insensitively. -/
def pdfRunPred (run : List Char) : Bool :=
  hasSub ".pdf".data (run.map Char.toLower)

/-- Consume `\d+\/` at the start of `t`: at least one digit, then a slash;
return the remainder. -/
def digitsSlash (t : List Char) : Option (List Char) :=
  let d := t.takeWhile Char.isDigit
  if d.isEmpty then none
  else
    match t.drop d.length with
    | c :: rest => if c == Char.ofNat 47 then some rest else none
    | [] => none

/-- The file extensions of the DocuShare patterns, with their dots. -/
def dsExtList : List (List Char) :=
  [".pdf".data, ".doc".data, ".docx".data, ".xls".data, ".xlsx".data,
   ".ppt".data, ".pptx".data]

/-- `r` matches `[^"']+\.(pdf|doc|docx|xls|xlsx|ppt|pptx)` entirely:
it ends (case-insensitively) with one of the dotted extensions and has at
least one character before it. -/
def extTailOk (r : List Char) : Bool :=
  dsExtList.any fun e =>
    leadsWith e.reverse (r.map Char.toLower).reverse && decide (e.length + 1 ≤ r.length)

/-- Capture predicate of the CivicWeb regex
`/href=["'](\/filepro\/document\/\d+\/[^"']+\.pdf)["']/i`. -/
def civicRunPred (run : List Char) : Bool :=
  leadsWith "/filepro/document/".data (run.map Char.toLower) &&
    (match digitsSlash (run.drop 18) with
     | some r =>
       leadsWith ".pdf".data.reverse (r.map Char.toLower).reverse && decide (5 ≤ r.length)
     | none => false)

/-- Capture predicate of DocuShare pattern 1
`/href=["'](\/dsweb\/Get\/Document-\d+\/[^"']+\.(pdf|...))["']/i`. -/
def dsGetPred (run : List Char) : Bool :=
  leadsWith "/dsweb/get/document-".data (run.map Char.toLower) &&
    (match digitsSlash (run.drop 20) with
     | some r => extTailOk r
     | none => false)

/-- Capture predicate of DocuShare pattern 2
`/href=["'](\/dsweb\/ServicesLib\/Document-\d+\/[^"']+\.(pdf|...))["']/i`. -/
def dsServPred (run : List Char) : Bool :=
  leadsWith "/dsweb/serviceslib/document-".data (run.map Char.toLower) &&
    (match digitsSlash (run.drop 28) with
     | some r => extTailOk r
     | none => false)

/-- Capture predicate of DocuShare pattern 3
`/href=["'](\/[^"']*(?:docushare|dsweb)[^"']+\.(pdf|...))["']/i`:
starts with a slash, ends with a dotted extension, and some occurrence of
`docushare` or `dsweb` lies strictly before the last pre-extension
character. -/
def dsDirectPred (run : List Char) : Bool :=
  match run with
  | [] => false
  | c :: _ =>
    c == Char.ofNat 47 &&
    dsExtList.any fun e =>
      leadsWith e.reverse (run.map Char.toLower).reverse &&
      (let core := (run.map Char.toLower).take (run.length - e.length)
       hasSub "docushare".data core.dropLast || hasSub "dsweb".data core.dropLast)

/-- `?preview=` followed by a digit occurs at the start (case-sensitive,
as in the source regex `/\?preview=(\d+)/`). -/
def previewAt (l : List Char) : Bool :=
  leadsWith "?preview=".data l &&
    (match l.drop 9 with
     | d :: _ => d.isDigit
     | [] => false)

/-- `url.match(/\?preview=(\d+)/)` succeeds somewhere in the string. -/
def hasPreviewIdCh : List Char → Bool
  | [] => false
  | c :: rest => previewAt (c :: rest) || hasPreviewIdCh rest

/-- Post-processing of a WordPress capture: after entity decoding, prefix
the origin when (and only when) the href starts with `/`. -/
def wpResolve (url d : String) : String :=
  if strStartsWith d "/" then urlOrigin url ++ d else d

/-- `extractWordPressDownloadUrl(url, html)` from `scrapeDocument.ts`:
loop guard on `wpdmdl=` in the URL, page detection, then the `wpdmdl` href
regex, then the `.pdf` href regex. -/
def extractWordPressDownloadUrl (url html : String) : Option String :=
  let hasWpdmInUrl := strIncludes url "wpdmdl="
  let isWpdmPage := strIncludes url "/download/" ||
    strIncludes html "wpdm-download-link" || strIncludes html "wpdm_view_count"
  if hasWpdmInUrl then none
  else if !isWpdmPage then none
  else
    match scanHref hasWpdmdlDigit html.data with
    | some cap => some (wpResolve url (decodeEntities ⟨cap⟩))
    | none =>
      match scanHref pdfRunPred html.data with
      | some cap => some (wpResolve url (decodeEntities ⟨cap⟩))
      | none => none

/-- `extractCivicWebDocumentUrl(url, html)` from `scrapeDocument.ts`. -/
def extractCivicWebDocumentUrl (url html : String) : Option String :=
  let isCivicWebPreview := strIncludes url "/filepro/documents/?preview=" ||
    (strIncludes url "civicweb.net" && strIncludes url "/filepro/documents")
  if !isCivicWebPreview then none
  else if !hasPreviewIdCh url.data then none
  else (scanHref civicRunPred html.data).map fun cap =>
    urlOrigin url ++ decodeEntities ⟨cap⟩

/-- `extractDocuShareDocumentUrl(url, html)` from `scrapeDocument.ts`. -/
def extractDocuShareDocumentUrl (url html : String) : Option String :=
  let isDocuSharePage := strIncludes url "/docushare/dsweb/" ||
    strIncludes url "DocuShare" || strIncludes html "DocuShare" ||
    strIncludes html "/dsweb/Get/" || strIncludes html "/dsweb/ServicesLib/"
  if !isDocuSharePage then none
  else
    match scanHref dsGetPred html.data with
    | some cap => some (urlOrigin url ++ decodeEntities ⟨cap⟩)
    | none =>
      match scanHref dsServPred html.data with
      | some cap => some (urlOrigin url ++ decodeEntities ⟨cap⟩)
      | none => (scanHref dsDirectPred html.data).map fun cap =>
          urlOrigin url ++ decodeEntities ⟨cap⟩

/-- The scraper strategies `scrapeDocument` can be driven by. -/
inductive ScraperTypeM where
  | basic
  | tree
deriving DecidableEq, Repr

/-- `ScraperType` as the string stored in `result.strategy.type`. -/
def ScraperTypeM.str : ScraperTypeM → String
  | .basic => "basic"
  | .tree => "tree"

/-- The fields of a captured download that `scrapeDocument` inspects
(`DownloadInfo`: url, filename, whether content was captured, whether an
error was recorded). -/
structure DownloadInfoM where
  url : String := ""
  filename : String := ""
  hasContent : Bool := false
  hasError : Bool := false
deriving DecidableEq, Repr

/-- URL normalization at the top of `scrapeDocument`: `/download/` paths
without query string get a trailing slash. -/
def normalizeDocUrl (url : String) : String :=
  if strIncludes url "/download/" && !strIncludes url "?" && !strEndsWith url "/"
  then url ++ "/" else url

/-- The classification-relevant fields of `scrapeDocument`'s result. -/
structure DocResultM where
  url : String
  type : String
  isDownload : Bool := false
  isPdf : Bool
  complete : Bool
  strategy : String
deriving DecidableEq, Repr

/-- Content-type inference for a captured download in `scrapeDocument`. -/
def inferDownloadContentType (filename : String) : String :=
  if strEndsWith (strToLower filename) ".pdf" then "application/pdf"
  else if strEndsWith (strToLower filename) ".doc" then "application/msword"
  else if strEndsWith (strToLower filename) ".docx" then
    "application/vnd.openxmlformats-officedocument.wordprocessingml.document"
  else "application/octet-stream"

/-- The classification pipeline of `scrapeDocument(url, options)`, as a pure
function of the fetched page: the normalized URL, the page content, the
captured downloads, and the underlying scrape result's strategy type and
completeness flag.  Mirrors the source order: download branch, WordPress,
CivicWeb (on the raw URL), DocuShare (on the raw URL), then the static
PDF / HTML fallback. -/
def scrapeDocumentModel (url content : String) (downloads : List DownloadInfoM)
    (baseType : ScraperTypeM) (baseComplete : Bool) : DocResultM :=
  let normalizedUrl := normalizeDocUrl url
  match downloads with
  | d :: _ =>
    let isPdf := strEndsWith (strToLower d.filename) ".pdf"
    { url := if d.url == "" then normalizedUrl else d.url,
      type := inferDownloadContentType d.filename,
      isDownload := true, isPdf := isPdf,
      complete := d.hasContent && !d.hasError,
      strategy := "direct-download" }
  | [] =>
    match extractWordPressDownloadUrl normalizedUrl content with
    | some wp =>
      { url := wp, type := "application/pdf", isPdf := true, complete := false,
        strategy := "wordpress-pdf-link" }
    | none =>
      match extractCivicWebDocumentUrl url content with
      | some cv =>
        { url := cv, type := "application/pdf", isPdf := true, complete := false,
          strategy := "civicweb-pdf-link" }
      | none =>
        match extractDocuShareDocumentUrl url content with
        | some ds =>
          let isPdf := strEndsWith (strToLower ds) ".pdf"
          { url := ds,
            type := if isPdf then "application/pdf" else "application/octet-stream",
            isPdf := isPdf, complete := false, strategy := "docushare-doc-link" }
        | none =>
          let isPdf := strEndsWith (strToLower url) ".pdf" ||
            strIncludes content "application/pdf" || strIncludes content "%PDF-"
          { url := normalizedUrl,
            type := if isPdf then "application/pdf" else "text/html",
            isPdf := isPdf, complete := baseComplete, strategy := baseType.str }

/-!  ## Link records and link maps -/

/-- A `Link` record (`shared/types.ts`): href, text, and optional metadata. -/
structure Link where
  href : String
  text : String := ""
  title : Option String := none
  ariaLabel : Option String := none
  rel : Option String := none
  target : Option String := none
  classes : Option (List String) := none
deriving DecidableEq, Repr

/-- A parsed anchor element, the input to the static link extractors
(HTML parsing itself is the job of cheerio / happy-dom and is treated as an
external pure function HTML → ordered anchor list). -/
structure AnchorM where
  href : Option String := none
  text : String := ""
  title : Option String := none
  ariaLabel : Option String := none
  rel : Option String := none
  target : Option String := none
  className : Option String := none
deriving DecidableEq, Repr

/-- `DomAdapter.extractLinks` (`adapters/dom.ts`): every anchor with a truthy
`href` attribute yields one record, in document order; no deduplication. -/
def domExtractLinks (anchors : List AnchorM) : List Link :=
  anchors.filterMap fun a =>
    match a.href with
    | none => none
    | some h =>
      if h = "" then none
      else some
        { href := h, text := strTrim a.text, title := a.title,
          ariaLabel := a.ariaLabel, rel := a.rel, target := a.target,
          classes :=
            match a.className with
            | none => none
            | some c => if c = "" then none else some (splitClasses c) }

/-- `JavaScript Map.set` on a href-keyed link map held as an insertion-ordered
list: replace in place when the key exists, else append. -/
def mapSet : List Link → Link → List Link
  | [], l => [l]
  | e :: rest, l => if e.href == l.href then l :: rest else e :: mapSet rest l

/-- `Map.get` on a href-keyed link map: the first entry with the key. -/
def mapLookup (m : List Link) (h : String) : Option Link :=
  m.find? (fun e => e.href == h)

/-- `Map.has` on a href-keyed link map. -/
def mapHas (m : List Link) (h : String) : Bool :=
  m.any (fun e => e.href == h)

/-- The merge step of `extractLinksWithTreeExpansion`
(`for (const link of newLinks) linkMap.set(link.href, link)`). -/
def mergeLinks (m : List Link) (newLinks : List Link) : List Link :=
  newLinks.foldl mapSet m

/-- The last entry of `newLinks` whose href is `h`, i.e. the record a
sequence of `Map.set` calls leaves behind for that key. -/
def lastWithHref : List Link → String → Option Link
  | [], _ => none
  | l :: rest, h =>
    match lastWithHref rest h with
    | some r => some r
    | none => if l.href == h then some l else none

/-- The accumulator loop of `TreeScraper.extractCurrentLinks`
(`if (!linkMap.has(href)) linkMap.set(href, {...})`). -/
def eclLoop (acc : List Link) : List Link → List Link
  | [] => acc
  | l :: rest =>
    if mapHas acc l.href then eclLoop acc rest
    else eclLoop (acc ++ [l]) rest

/-- `TreeScraper.extractCurrentLinks` (`scrapers/tree.ts`): walk the page's
anchor records in document order and keep the first record per href. -/
def extractCurrentLinks (pageLinks : List Link) : List Link :=
  eclLoop [] pageLinks

/-!  ## The tree-expansion engine (`TreeScraper.extractLinksWithTreeExpansion`) -/

/-- A live DOM element as the engine sees it: its structural path (the string
`getPath` computes), visibility, and whether a click on it succeeds. -/
structure Elem where
  path : String
  visible : Bool := true
  clickable : Bool := true
deriving DecidableEq, Repr

/-- The interactive page abstraction: page states are indexed by `Nat`
(state `0` is the freshly loaded page); `query` models `page.$$(selector)`,
`links` the anchor records `extractCurrentLinks` reads, and `next` the state
reached after a successful click on the element with the given identity. -/
structure PageModel where
  query : Nat → String → List Elem
  links : Nat → List Link
  next : Nat → String → Nat

/-- The default expandable-element selectors of `TreeScraper`, in priority
order. -/
def DEFAULT_SELECTORS : List String :=
  ["li.directory.collapsed > a", "li.collapsed > a", "details summary",
   "[data-accordion-trigger]", "[data-toggle=\"collapse\"]",
   ".accordion-button", ".expand-button",
   "[role=\"button\"][aria-expanded]", "button[aria-expanded]"]

/-- The element identity `` `${sel}::${getPath(el)}` ``. -/
def elemId (sel : String) (e : Elem) : String := sel ++ "::" ++ e.path

/-- The inner element loop for one selector: skip clicked identities, skip
invisible elements, attempt clicks until the first success, whose identity
is returned. A failed click (`catch`) moves on to the next element. -/
def firstClickInElems (clicked : List String) (sel : String) : List Elem → Option String
  | [] => none
  | e :: rest =>
    if clicked.contains (elemId sel e) then firstClickInElems clicked sel rest
    else if !e.visible then firstClickInElems clicked sel rest
    else if e.clickable then some (elemId sel e)
    else firstClickInElems clicked sel rest

/-- One pass over the selectors in priority order, stopping at the first
selector that yields a successful click (the `break` pair in the source). -/
def findClick (pm : PageModel) (s : Nat) (clicked : List String) : List String → Option String
  | [] => none
  | sel :: rest =>
    match firstClickInElems clicked sel (pm.query s sel) with
    | some id => some id
    | none => findClick pm s clicked rest

/-- The mutable state of one expansion run. -/
structure ExpState where
  page : Nat
  linkMap : List Link
  clicked : List String
  interactionCount : Nat
  consecutiveEmpty : Nat
deriving Repr

/-- The outer iteration loop, fuelled by the remaining iteration budget.
Besides the final state it returns the trace of executed iterations
(`true` = an element was clicked, `false` = empty iteration).  An empty
iteration increments `consecutiveEmpty` and the loop breaks when it
reaches 2; a click resets it to 0. -/
def expandLoop (pm : PageModel) (sels : List String) : Nat → ExpState → ExpState × List Bool
  | 0, st => (st, [])
  | fuel + 1, st =>
    match findClick pm st.page st.clicked sels with
    | some id =>
      let p2 := pm.next st.page id
      let st2 : ExpState :=
        { page := p2,
          linkMap := mergeLinks st.linkMap (extractCurrentLinks (pm.links p2)),
          clicked := st.clicked ++ [id],
          interactionCount := st.interactionCount + 1,
          consecutiveEmpty := 0 }
      let r := expandLoop pm sels fuel st2
      (r.1, true :: r.2)
    | none =>
      let ce := st.consecutiveEmpty + 1
      if 2 ≤ ce then ({ st with consecutiveEmpty := ce }, [false])
      else
        let r := expandLoop pm sels fuel { st with consecutiveEmpty := ce }
        (r.1, false :: r.2)

/-- `this.options.maxIterations || 10` (0 is falsy in JavaScript). -/
def effMaxIterations (n : Nat) : Nat := if n = 0 then 10 else n

/-- `this.options.clickDelay || 100` as used by `getCacheKey`. -/
def effClickDelay (n : Nat) : Nat := if n = 0 then 100 else n

/-- `TreeScraperOptions` after the constructor merged in its defaults. -/
structure TreeScraperOptionsM where
  maxIterations : Nat := 10
  clickDelay : Nat := 100
  customSelectors : List String := []
  handleExclusive : Bool := true
  headless : Bool := true
deriving Repr

/-- `TreeScraper.extractLinksWithTreeExpansion`: initial extraction into the
link map, then the bounded expansion loop over default + custom selectors. -/
def extractLinksWithTreeExpansionM (pm : PageModel) (o : TreeScraperOptionsM) :
    ExpState × List Bool :=
  let sels := DEFAULT_SELECTORS ++ o.customSelectors
  let st0 : ExpState :=
    { page := 0, linkMap := extractCurrentLinks (pm.links 0), clicked := [],
      interactionCount := 0, consecutiveEmpty := 0 }
  expandLoop pm sels (effMaxIterations o.maxIterations) st0

/-- The iteration trace of one expansion run. -/
def expTrace (pm : PageModel) (o : TreeScraperOptionsM) : List Bool :=
  (extractLinksWithTreeExpansionM pm o).2

/-- The final expansion state of one run. -/
def expFinal (pm : PageModel) (o : TreeScraperOptionsM) : ExpState :=
  (extractLinksWithTreeExpansionM pm o).1

/-!  ## Cache key and caching decisions of `TreeScraper.scrape` -/

/-- Characters `encodeURIComponent` leaves unescaped. -/
def isUriUnreserved (c : Char) : Bool :=
  c.isAlphanum || c == Char.ofNat 45 || c == Char.ofNat 95 || c == Char.ofNat 46 ||
  c == Char.ofNat 33 || c == Char.ofNat 126 || c == Char.ofNat 42 ||
  c == Char.ofNat 39 || c == Char.ofNat 40 || c == Char.ofNat 41

/-- Uppercase hexadecimal digit. -/
def hexDigitU (n : Nat) : Char :=
  if n < 10 then Char.ofNat (48 + n) else Char.ofNat (55 + n)

/-- UTF-8 bytes of a code point. -/
def utf8BytesOf (n : Nat) : List Nat :=
  if n < 128 then [n]
  else if n < 2048 then [192 + n / 64, 128 + n % 64]
  else if n < 65536 then [224 + n / 4096, 128 + (n / 64) % 64, 128 + n % 64]
  else [240 + n / 262144, 128 + (n / 4096) % 64, 128 + (n / 64) % 64, 128 + n % 64]

/-- Percent-encoding of one character, byte by byte. -/
def pctEncodeChar (c : Char) : List Char :=
  (utf8BytesOf c.toNat).foldr
    (fun b acc => Char.ofNat 37 :: hexDigitU (b / 16) :: hexDigitU (b % 16) :: acc) []

/-- The ECMAScript builtin `encodeURIComponent`. -/
def encodeURIComponent (s : String) : String :=
  ⟨s.data.foldr
    (fun c acc => if isUriUnreserved c then c :: acc else pctEncodeChar c ++ acc) []⟩

/-- `TreeScraper.getCacheKey(url)`:
`` `tree:${encodeURIComponent(url)}:${maxIterations}:${clickDelay}` ``
where the numbers are `this.options.maxIterations || 10` and
`this.options.clickDelay || 100`.  No other option enters the key. -/
def getTreeCacheKey (url : String) (o : TreeScraperOptionsM) : String :=
  "tree:" ++ encodeURIComponent url ++ ":" ++
    toString (effMaxIterations o.maxIterations) ++ ":" ++
    toString (effClickDelay o.clickDelay)

/-- The confidence / strategy / metrics part of a `ScrapeResult`. -/
structure StrategyM where
  type : String
  spider : String
  confidence : ℚ
deriving DecidableEq, Repr

/-- The `metrics` part of a `ScrapeResult`. -/
structure MetricsM where
  linkCount : Nat
  interactionCount : Nat
  complete : Bool
deriving DecidableEq, Repr

/-- The outcome-relevant part of a `ScrapeResult` built by
`TreeScraper.scrape`. -/
structure ScrapeResultM where
  links : List Link
  strategy : StrategyM
  metrics : MetricsM
deriving DecidableEq, Repr

/-- The result the `requestHandler` builds after a normal (non-download)
tree scrape: links from the expansion run, confidence `0.9` when at least
one interaction happened and `0.5` otherwise, `complete` always true. -/
def treeScrapeSuccessResult (pm : PageModel) (o : TreeScraperOptionsM) : ScrapeResultM :=
  let st := expFinal pm o
  { links := st.linkMap,
    strategy :=
      { type := "tree", spider := "crawlee",
        confidence := if 0 < st.interactionCount then (9 : ℚ)/10 else (5 : ℚ)/10 },
    metrics :=
      { linkCount := st.linkMap.length,
        interactionCount := st.interactionCount,
        complete := true } }

/-- The result built when navigation failed because a download started and a
download payload was captured (both the `requestHandler` catch branch and the
`failedRequestHandler`): zero links, zero interactions, confidence `0.8`,
`complete` true. -/
def treeScrapeDownloadResult : ScrapeResultM :=
  { links := [],
    strategy := { type := "tree", spider := "crawlee", confidence := (8 : ℚ)/10 },
    metrics := { linkCount := 0, interactionCount := 0, complete := true } }

/-- The caching-relevant options of `TreeScraper.scrape`. -/
structure ScrapeOptsM where
  cache : Option Bool := none
  cacheExpiry : Option Nat := none
deriving Repr

/-- `const cache = options?.cache !== false`. -/
def cacheEnabled (o : ScrapeOptsM) : Bool := o.cache != some false

/-- `const cacheExpiry = options?.cacheExpiry || 300000` — note that the
JavaScript `||` sends an explicit 0 to the 300000 ms default. -/
def effCacheExpiry (o : ScrapeOptsM) : Nat :=
  match o.cacheExpiry with
  | some n => if n = 0 then 300000 else n
  | none => 300000

/-- Whether `TreeScraper.scrape` writes its result to the cache and, if so,
with which TTL in seconds (`Math.floor(cacheExpiry / 1000)`). -/
def cacheWriteTTL (o : ScrapeOptsM) : Option Nat :=
  if cacheEnabled o then some (effCacheExpiry o / 1000) else none

/-!  ## Concrete page models used as test inputs -/

/-- A page with an inexhaustible supply of expandable tree nodes: every state
offers a fresh clickable node under the highest-priority selector. -/
def pmInfinite : PageModel :=
  { query := fun s sel =>
      if sel = "li.directory.collapsed > a" then [{ path := toString s }] else [],
    links := fun _ => [],
    next := fun s _ => s + 1 }

/-- A page whose anchor `/a` has text `A` before the first click and text `B`
afterwards; one clickable node, then nothing. -/
def pmRelabel : PageModel :=
  { query := fun s sel =>
      if s = 0 && sel = "li.directory.collapsed > a" then [{ path := "UL > LI:nth-child(1)" }]
      else [],
    links := fun s =>
      if s = 0 then [{ href := "/a", text := "A" }] else [{ href := "/a", text := "B" }],
    next := fun _ _ => 1 }

/-- A page where only the custom selector `li.x` matches a clickable node. -/
def pmCustomOnly : PageModel :=
  { query := fun s sel =>
      if s = 0 && sel = "li.x" then [{ path := "UL > LI:nth-child(2)" }] else [],
    links := fun _ => [],
    next := fun _ _ => 1 }

/-!  ## Helper lemmas -/

theorem strData_append (a b : String) : (a ++ b).data = a.data ++ b.data := by
  cases a
  cases b
  rfl

theorem leadsWith_append_right (p : List Char) :
    ∀ l m : List Char, leadsWith p l = true → leadsWith p (l ++ m) = true := by
  induction p with
  | nil => intro l m _; rfl
  | cons a ps ih =>
    intro l m h
    cases l with
    | nil => simp [leadsWith] at h
    | cons c cs =>
      simp only [leadsWith, Bool.and_eq_true] at h
      simpa [leadsWith, h.1] using ih cs m h.2

theorem hasSub_nil_pat (l : List Char) : hasSub [] l = true := by
  cases l <;> simp [hasSub, leadsWith, List.isEmpty]

theorem hasSub_append_right (p : List Char) :
    ∀ l m : List Char, hasSub p l = true → hasSub p (l ++ m) = true := by
  intro l
  induction l with
  | nil =>
    intro m h
    simp only [hasSub, List.isEmpty_iff] at h
    subst h
    simpa using hasSub_nil_pat m
  | cons c rest ih =>
    intro m h
    simp only [hasSub, Bool.or_eq_true] at h ⊢
    rcases h with h | h
    · exact Or.inl (leadsWith_append_right p (c :: rest) m h)
    · exact Or.inr (ih m h)

theorem leadsWith_append_self (p : List Char) :
    ∀ t : List Char, leadsWith p (p ++ t) = true := by
  induction p with
  | nil => intro t; rfl
  | cons a ps ih => intro t; simp [leadsWith, ih t]

theorem leadsWith_snoc_last (p : List Char) :
    ∀ (l : List Char) (c : Char), leadsWith p (l ++ [c]) = true →
      p.getLast? ≠ some c → leadsWith p l = true := by
  induction p with
  | nil => intro l c _ _; rfl
  | cons a ps ih =>
    intro l c h hlast
    cases l with
    | nil =>
      simp only [List.nil_append, leadsWith, Bool.and_eq_true] at h
      obtain ⟨ha, hps⟩ := h
      cases ps with
      | nil =>
        exact absurd
          (show (a :: ([] : List Char)).getLast? = some c by
            simp [List.getLast?, eq_of_beq ha]) hlast
      | cons b bs => simp [leadsWith] at hps
    | cons d ds =>
      simp only [List.cons_append, leadsWith, Bool.and_eq_true] at h ⊢
      obtain ⟨ha, hps⟩ := h
      refine ⟨ha, ?_⟩
      cases ps with
      | nil => rfl
      | cons b bs =>
        exact ih ds c hps (by simpa [List.getLast?_cons_cons] using hlast)

theorem hasSub_snoc_last (p : List Char) (hp : p ≠ []) :
    ∀ (l : List Char) (c : Char), hasSub p (l ++ [c]) = true →
      p.getLast? ≠ some c → hasSub p l = true := by
  intro l
  induction l with
  | nil =>
    intro c h hlast
    simp only [List.nil_append, hasSub, Bool.or_eq_true] at h
    rcases h with h | h
    · have := leadsWith_snoc_last p [] c (by simpa using h) hlast
      cases p with
      | nil => exact absurd rfl hp
      | cons a ps => simp [leadsWith] at this
    · simp [List.isEmpty_iff] at h
      exact absurd h hp
  | cons d ds ih =>
    intro c h hlast
    simp only [List.cons_append, hasSub, Bool.or_eq_true] at h ⊢
    rcases h with h | h
    · exact Or.inl (leadsWith_snoc_last p (d :: ds) c (by simpa using h) hlast)
    · exact Or.inr (ih c h hlast)

theorem strIncludes_normalizeDocUrl (url sub : String)
    (h : strIncludes url sub = true) :
    strIncludes (normalizeDocUrl url) sub = true := by
  unfold normalizeDocUrl
  split
  · unfold strIncludes at h ⊢
    rw [strData_append]
    exact hasSub_append_right sub.data url.data "/".data h
  · exact h

theorem strIncludes_wpdmdl_normalizeDocUrl_eq_false (url : String)
    (h : strIncludes url "wpdmdl=" = false) :
    strIncludes (normalizeDocUrl url) "wpdmdl=" = false := by
  unfold normalizeDocUrl
  split
  · unfold strIncludes at h ⊢
    rw [strData_append]
    by_contra hx
    rw [Bool.not_eq_false] at hx
    have := hasSub_snoc_last "wpdmdl=".data (by decide) url.data (Char.ofNat 47)
      (by simpa using hx) (by decide)
    rw [this] at h
    exact Bool.true_eq_false.mp h
  · exact h

/-- C1: for every input URL already containing the resolver marker `wpdmdl=`
and every HTML content, `extractWordPressDownloadUrl` returns null, and
`scrapeDocument` never classifies the result as `wordpress-pdf-link`
(for any captured downloads and any underlying scraper strategy). -/
theorem c1_wpdmdl_loop_guard (url html : String) (dls : List DownloadInfoM)
    (bt : ScraperTypeM) (bc : Bool) (h : strIncludes url "wpdmdl=" = true) :
    extractWordPressDownloadUrl url html = none ∧
    (scrapeDocumentModel url html dls bt bc).strategy ≠ "wordpress-pdf-link" := by
  have hn : strIncludes (normalizeDocUrl url) "wpdmdl=" = true :=
    strIncludes_normalizeDocUrl url "wpdmdl=" h
  have hwp : extractWordPressDownloadUrl (normalizeDocUrl url) html = none := by
    simp [extractWordPressDownloadUrl, hn]
  refine ⟨by simp [extractWordPressDownloadUrl, h], ?_⟩
  unfold scrapeDocumentModel
  cases dls with
  | cons d rest => simp
  | nil =>
    simp only [hwp]
    cases hc : extractCivicWebDocumentUrl url html with
    | some cv => simp
    | none =>
      cases hd : extractDocuShareDocumentUrl url html with
      | some ds => simp
      | none => cases bt <;> simp [ScraperTypeM.str]

theorem c1_witness :
    strIncludes "https://x.com/download/f/?wpdmdl=17" "wpdmdl=" = true ∧
    (extractWordPressDownloadUrl "https://x.com/download/f/?wpdmdl=17"
        "<a href=\"/y.pdf?wpdmdl=5\">x</a>" = none ∧
      (scrapeDocumentModel "https://x.com/download/f/?wpdmdl=17"
          "<a href=\"/y.pdf?wpdmdl=5\">x</a>" [] .basic true).strategy ≠
        "wordpress-pdf-link") :=
  ⟨by decide,
    c1_wpdmdl_loop_guard "https://x.com/download/f/?wpdmdl=17"
      "<a href=\"/y.pdf?wpdmdl=5\">x</a>" [] .basic true (by decide)⟩

/-- C10: for a URL without the `wpdmdl=` marker that contains `/download/`
(or HTML carrying a WordPress download-manager marker), when the HTML has no
href with a `wpdmdl` parameter but the `.pdf` href regex finds a capture,
`scrapeDocument` classifies the page as `wordpress-pdf-link` and returns that
capture entity-decoded and origin-resolved when it starts with `/`, with
`isPdf` true and `complete` false — regardless of whether the page really is
a WordPress Download Manager page. -/
theorem c10_pdf_fallback (url html : String) (bt : ScraperTypeM) (bc : Bool)
    (cap : List Char)
    (_hu : isHttpUrl url = true)
    (h1 : strIncludes url "wpdmdl=" = false)
    (h2 : strIncludes url "/download/" = true ∨
      strIncludes html "wpdm-download-link" = true ∨
      strIncludes html "wpdm_view_count" = true)
    (h3 : scanHref hasWpdmdlDigit html.data = none)
    (h4 : scanHref pdfRunPred html.data = some cap) :
    scrapeDocumentModel url html [] bt bc =
      { url := wpResolve (normalizeDocUrl url) (decodeEntities ⟨cap⟩),
        type := "application/pdf", isDownload := false, isPdf := true,
        complete := false, strategy := "wordpress-pdf-link" } := by
  have hn1 : strIncludes (normalizeDocUrl url) "wpdmdl=" = false :=
    strIncludes_wpdmdl_normalizeDocUrl_eq_false url h1
  have hn2 : (strIncludes (normalizeDocUrl url) "/download/" ||
      strIncludes html "wpdm-download-link" ||
      strIncludes html "wpdm_view_count") = true := by
    rcases h2 with h | h | h
    · simp [strIncludes_normalizeDocUrl url "/download/" h]
    · simp [h]
    · simp [h]
  have hwp : extractWordPressDownloadUrl (normalizeDocUrl url) html =
      some (wpResolve (normalizeDocUrl url) (decodeEntities ⟨cap⟩)) := by
    unfold extractWordPressDownloadUrl
    simp [hn1, hn2, h3, h4]
  unfold scrapeDocumentModel
  simp only [hwp]

theorem c10_witness :
    isHttpUrl "https://x.com/download/doc" = true ∧
    strIncludes "https://x.com/download/doc" "wpdmdl=" = false ∧
    strIncludes "https://x.com/download/doc" "/download/" = true ∧
    scanHref hasWpdmdlDigit "<div><a href=\"/files/report.pdf\">PDF</a></div>".data = none ∧
    scanHref pdfRunPred "<div><a href=\"/files/report.pdf\">PDF</a></div>".data =
      some "/files/report.pdf".data ∧
    scrapeDocumentModel "https://x.com/download/doc"
        "<div><a href=\"/files/report.pdf\">PDF</a></div>" [] .basic true =
      { url := "https://x.com/files/report.pdf", type := "application/pdf",
        isDownload := false, isPdf := true, complete := false,
        strategy := "wordpress-pdf-link" } := by
  refine ⟨by decide, by decide, by decide, by decide, by decide, ?_⟩
  have h := c10_pdf_fallback "https://x.com/download/doc"
    "<div><a href=\"/files/report.pdf\">PDF</a></div>" .basic true
    "/files/report.pdf".data (by decide) (by decide) (Or.inl (by decide))
    (by decide) (by decide)
  simpa using h

theorem strStartsWith_append_left (a b : String) : strStartsWith (a ++ b) a = true := by
  unfold strStartsWith
  rw [strData_append]
  exact leadsWith_append_self a.data b.data

theorem urlOrigin_head (url : String) (h : isHttpUrl url = true) :
    ∃ t, (urlOrigin url).data = Char.ofNat 104 :: t := by
  unfold isHttpUrl at h
  unfold urlOrigin
  rcases Bool.or_eq_true _ _ |>.mp h with h1 | h1
  · rw [if_pos h1]
    exact ⟨_, by rw [strData_append]; rfl⟩
  · by_cases h2 : leadsWith "https://".data url.data
    · rw [if_pos h2]
      exact ⟨_, by rw [strData_append]; rfl⟩
    · rw [if_neg h2, if_pos h1]
      exact ⟨_, by rw [strData_append]; rfl⟩

theorem not_startsWith_slash_of_head_h (u : String) (t : List Char)
    (h : u.data = Char.ofNat 104 :: t) : strStartsWith u "/" = false := by
  unfold strStartsWith
  rw [h]
  rfl

theorem extractCivic_shape (url html u : String)
    (h : extractCivicWebDocumentUrl url html = some u) :
    ∃ cap, u = urlOrigin url ++ decodeEntities ⟨cap⟩ := by
  rcases hscan : scanHref civicRunPred html.data with _ | cap <;>
    simp only [extractCivicWebDocumentUrl, hscan, Option.map_none, Option.map_some,
      ite_self] at h
  · exact absurd h (by split at h <;> simp_all)
  · split at h
    · exact absurd h (by simp)
    · split at h
      · exact absurd h (by simp)
      · exact ⟨cap, (Option.some.inj h).symm⟩

theorem extractDocuShare_shape (url html u : String)
    (h : extractDocuShareDocumentUrl url html = some u) :
    ∃ cap, u = urlOrigin url ++ decodeEntities ⟨cap⟩ := by
  rcases h1 : scanHref dsGetPred html.data with _ | cap1
  case some =>
    simp only [extractDocuShareDocumentUrl, h1] at h
    split at h
    · exact absurd h (by simp)
    · exact ⟨cap1, (Option.some.inj h).symm⟩
  rcases h2 : scanHref dsServPred html.data with _ | cap2
  case some =>
    simp only [extractDocuShareDocumentUrl, h1, h2] at h
    split at h
    · exact absurd h (by simp)
    · exact ⟨cap2, (Option.some.inj h).symm⟩
  rcases h3 : scanHref dsDirectPred html.data with _ | cap3 <;>
    simp only [extractDocuShareDocumentUrl, h1, h2, h3, Option.map_none,
      Option.map_some] at h
  · exact absurd h (by split at h <;> simp_all)
  · split at h
    · exact absurd h (by simp)
    · exact ⟨cap3, (Option.some.inj h).symm⟩

theorem extractWordPress_shape (url html u : String)
    (h : extractWordPressDownloadUrl url html = some u) :
    ∃ cap, u = wpResolve url (decodeEntities ⟨cap⟩) := by
  rcases h1 : scanHref hasWpdmdlDigit html.data with _ | cap1
  case some =>
    simp only [extractWordPressDownloadUrl, h1] at h
    split at h
    · exact absurd h (by simp)
    · split at h
      · exact absurd h (by simp)
      · exact ⟨cap1, (Option.some.inj h).symm⟩
  rcases h2 : scanHref pdfRunPred html.data with _ | cap2 <;>
    simp only [extractWordPressDownloadUrl, h1, h2] at h
  · exact absurd h (by split at h <;> simp_all [ite_self])
  · split at h
    · exact absurd h (by simp)
    · split at h
      · exact absurd h (by simp)
      · exact ⟨cap2, (Option.some.inj h).symm⟩

theorem wpResolve_not_slash (url d : String) (h : isHttpUrl url = true) :
    strStartsWith (wpResolve url d) "/" = false := by
  unfold wpResolve
  split
  · obtain ⟨t, ht⟩ := urlOrigin_head url h
    refine not_startsWith_slash_of_head_h _ (t ++ d.data) ?_
    rw [strData_append, ht]
    rfl
  · rename_i hd
    simpa using hd

/-- C9 (amended): the CivicWeb and DocuShare extractors always return the
origin of the input URL followed by the entity-decoded capture, so their
outputs start with that origin; the WordPress extractor resolves a decoded
href against the origin only when it starts with `/` (so its output never
starts with `/`), and returns other relative hrefs unchanged.  Entity
decoding is the fixed five-entity replacement `decodeEntities`; the final
conjunct pins decoding and origin resolution together on a concrete
WordPress extraction. -/
theorem c9_decode_and_origin_resolution :
    (∀ url html u, extractCivicWebDocumentUrl url html = some u →
      strStartsWith u (urlOrigin url) = true) ∧
    (∀ url html u, extractDocuShareDocumentUrl url html = some u →
      strStartsWith u (urlOrigin url) = true) ∧
    (∀ url html u, isHttpUrl url = true →
      extractWordPressDownloadUrl url html = some u →
      strStartsWith u "/" = false) ∧
    decodeEntities "/x.pdf?wpdmdl=1&amp;r=2&quot;&#039;&lt;&gt;&nbsp;" =
      "/x.pdf?wpdmdl=1&r=2\"\x27<>&nbsp;" ∧
    extractWordPressDownloadUrl "https://e.com/download/f/"
        "<a href=\"/x.pdf?wpdmdl=1&amp;r=2\">x</a>" =
      some "https://e.com/x.pdf?wpdmdl=1&r=2" := by
  refine ⟨?_, ?_, ?_, by decide, by decide⟩
  · intro url html u h
    obtain ⟨cap, hc⟩ := extractCivic_shape url html u h
    rw [hc]
    exact strStartsWith_append_left _ _
  · intro url html u h
    obtain ⟨cap, hc⟩ := extractDocuShare_shape url html u h
    rw [hc]
    exact strStartsWith_append_left _ _
  · intro url html u hurl h
    obtain ⟨cap, hc⟩ := extractWordPress_shape url html u h
    rw [hc]
    exact wpResolve_not_slash url _ hurl

theorem c9_witness :
    isHttpUrl "https://b.civicweb.net/filepro/documents/?preview=12" = true ∧
    extractCivicWebDocumentUrl "https://b.civicweb.net/filepro/documents/?preview=12"
        "<a href=\"/filepro/document/12/a.pdf\">x</a>" =
      some "https://b.civicweb.net/filepro/document/12/a.pdf" ∧
    strStartsWith "https://b.civicweb.net/filepro/document/12/a.pdf"
      (urlOrigin "https://b.civicweb.net/filepro/documents/?preview=12") = true ∧
    extractWordPressDownloadUrl "https://e.com/download/f/"
        "<a href=\"doc.pdf\">x</a>" = some "doc.pdf" ∧
    strStartsWith "doc.pdf" "/" = false := by
  refine ⟨by decide, by decide, ?_, by decide, ?_⟩
  · exact c9_decode_and_origin_resolution.1
      "https://b.civicweb.net/filepro/documents/?preview=12"
      "<a href=\"/filepro/document/12/a.pdf\">x</a>"
      "https://b.civicweb.net/filepro/document/12/a.pdf" (by decide)
  · exact c9_decode_and_origin_resolution.2.2.1
      "https://e.com/download/f/" "<a href=\"doc.pdf\">x</a>" "doc.pdf"
      (by decide) (by decide)

theorem c9_counterexample :
    extractWordPressDownloadUrl "https://example.com/download/file/"
        "<a href=\"doc.pdf\">Get</a>" = some "doc.pdf" ∧
    strStartsWith "doc.pdf"
      (urlOrigin "https://example.com/download/file/") = false ∧
    strStartsWith "doc.pdf" "https://" = false := by
  refine ⟨by decide, by decide, by decide⟩

theorem find?_append_or (p : Link → Bool) (l1 l2 : List Link) :
    (l1 ++ l2).find? p =
      match l1.find? p with
      | some r => some r
      | none => l2.find? p := by
  induction l1 with
  | nil => simp
  | cons a rest ih =>
    by_cases hp : p a = true
    · simp [List.find?, hp]
    · simp only [List.cons_append, List.find?, Bool.not_eq_true] at *
      rw [hp]
      simpa [hp] using ih

theorem mapHas_false_not_beq (acc : List Link) (h : String)
    (hm : mapHas acc h = false) : ∀ e ∈ acc, (e.href == h) = false := by
  intro e he
  by_contra hx
  rw [Bool.not_eq_false] at hx
  have : mapHas acc h = true := by
    unfold mapHas
    rw [List.any_eq_true]
    exact ⟨e, he, hx⟩
  rw [this] at hm
  exact Bool.true_eq_false.mp hm

theorem eclLoop_href_nodup (ls : List Link) :
    ∀ acc : List Link, (acc.map Link.href).Nodup →
      ((eclLoop acc ls).map Link.href).Nodup := by
  induction ls with
  | nil => intro acc hacc; simpa [eclLoop] using hacc
  | cons l rest ih =>
    intro acc hacc
    unfold eclLoop
    by_cases hm : mapHas acc l.href = true
    · rw [if_pos hm]
      exact ih acc hacc
    · rw [if_neg hm]
      refine ih (acc ++ [l]) ?_
      rw [List.map_append, List.map_singleton]
      rw [List.nodup_append]
      refine ⟨hacc, List.nodup_singleton _, ?_⟩
      intro x hx
      simp only [List.mem_singleton]
      intro hxl
      subst hxl
      obtain ⟨e, he, heq⟩ := List.mem_map.mp hx
      have := mapHas_false_not_beq acc l.href (Bool.not_eq_true _ |>.mp hm) e he
      rw [heq] at this
      simp at this

theorem eclLoop_find (h : String) (ls : List Link) :
    ∀ acc : List Link,
      (eclLoop acc ls).find? (fun e => e.href == h) =
        match acc.find? (fun e => e.href == h) with
        | some r => some r
        | none => ls.find? (fun e => e.href == h) := by
  induction ls with
  | nil =>
    intro acc
    unfold eclLoop
    cases acc.find? (fun e => e.href == h) <;> simp
  | cons l rest ih =>
    intro acc
    unfold eclLoop
    by_cases hm : mapHas acc l.href = true
    · rw [if_pos hm, ih acc]
      cases hacc : acc.find? (fun e => e.href == h) with
      | some r => rfl
      | none =>
        have hpl : (l.href == h) = false := by
          by_contra hx
          rw [Bool.not_eq_false] at hx
          obtain ⟨e, he, hbeq⟩ := List.any_eq_true.mp hm
          have hnone := List.find?_eq_none.mp hacc e he
          have : e.href = l.href := eq_of_beq hbeq
          have : (e.href == h) = true := by rw [this]; exact hx
          exact hnone this
        simp [List.find?, hpl]
    · rw [if_neg hm, ih (acc ++ [l]), find?_append_or]
      cases hacc : acc.find? (fun e => e.href == h) with
      | some r => rfl
      | none =>
        by_cases hpl : (l.href == h) = true
        · simp [List.find?, hpl]
        · rw [Bool.not_eq_true] at hpl
          simp [List.find?, hpl]

/-- C3 (amended): one extraction pass of `TreeScraper.extractCurrentLinks`
keeps at most one record per href, retaining the first-encountered record
(its `find?` by href agrees with `find?` on the raw document-order anchor
records), and on the claimed two-anchor scenario it returns exactly the
first record; the DOM adapter's `extractLinks`, by contrast, emits one
record per anchor without deduplication (see the counterexample). -/
theorem c3_extract_dedup_first_wins :
    (∀ ls : List Link, ((extractCurrentLinks ls).map Link.href).Nodup) ∧
    (∀ (ls : List Link) (h : String),
      (extractCurrentLinks ls).find? (fun e => e.href == h) =
        ls.find? (fun e => e.href == h)) ∧
    extractCurrentLinks [{ href := "/a", text := "A" }, { href := "/a", text := "A2" }] =
      [{ href := "/a", text := "A" }] := by
  refine ⟨?_, ?_, by decide⟩
  · intro ls
    exact eclLoop_href_nodup ls [] (by simp)
  · intro ls h
    rw [show extractCurrentLinks ls = eclLoop [] ls from rfl, eclLoop_find h ls []]
    simp [List.find?]

theorem c3_counterexample :
    domExtractLinks
        [{ href := some "/a", text := "A" }, { href := some "/a", text := "A2" }] =
      [{ href := "/a", text := "A" }, { href := "/a", text := "A2" }] ∧
    (domExtractLinks
        [{ href := some "/a", text := "A" }, { href := some "/a", text := "A2" }]).map
      Link.href = ["/a", "/a"] := by
  exact ⟨by decide, by decide⟩

theorem mapSet_lookup (l : Link) (h : String) :
    ∀ m : List Link, mapLookup (mapSet m l) h =
      if l.href == h then some l else mapLookup m h := by
  intro m
  induction m with
  | nil =>
    unfold mapSet mapLookup
    by_cases hx : (l.href == h) = true <;> simp [List.find?, hx]
  | cons e rest ih =>
    unfold mapSet
    by_cases he : (e.href == l.href) = true
    · rw [if_pos he]
      by_cases hx : (l.href == h) = true
      · simp [mapLookup, List.find?, hx]
      · rw [Bool.not_eq_true] at hx
        have hex : (e.href == h) = false := by
          by_contra hc
          rw [Bool.not_eq_false] at hc
          rw [eq_of_beq he] at hc
          rw [hc] at hx
          exact Bool.true_eq_false.mp hx
        simp [mapLookup, List.find?, hx, hex]
    · rw [if_neg he]
      rw [Bool.not_eq_true] at he
      unfold mapLookup at ih ⊢
      by_cases hex : (e.href == h) = true
      · have hx : (l.href == h) = false := by
          by_contra hc
          rw [Bool.not_eq_false] at hc
          rw [show e.href = h from eq_of_beq hex, show l.href = h from eq_of_beq hc] at he
          simp at he
        simp [List.find?, hex, hx]
      · rw [Bool.not_eq_true] at hex
        simp only [List.find?, hex]
        exact ih

theorem mergeLinks_lookup (h : String) (newLinks : List Link) :
    ∀ m : List Link, mapLookup (mergeLinks m newLinks) h =
      match lastWithHref newLinks h with
      | some r => some r
      | none => mapLookup m h := by
  induction newLinks with
  | nil => intro m; rfl
  | cons l rest ih =>
    intro m
    rw [show mergeLinks m (l :: rest) = mergeLinks (mapSet m l) rest from rfl]
    rw [ih (mapSet m l)]
    cases hrest : lastWithHref rest h with
    | some r => simp [lastWithHref, hrest]
    | none =>
      simp only [lastWithHref, hrest]
      rw [mapSet_lookup l h m]
      by_cases hx : (l.href == h) = true <;> simp [hx]

theorem mapHas_iff_lookup (m : List Link) (h : String) :
    mapHas m h = (mapLookup m h).isSome := by
  induction m with
  | nil => rfl
  | cons e rest ih =>
    unfold mapHas mapLookup at *
    by_cases hex : (e.href == h) = true <;> simp [List.find?, List.any_cons, hex, ih]

/-- C4 (amended): during one tree-expansion run the per-click merge is a
sequence of `Map.set` calls, so for every href the merged map holds the
last record of the later extraction pass when that pass contains the href
(last-wins: existing metadata IS overwritten), and the record from the
accumulated map only when the later pass does not mention the href; href
keys are never lost by a merge. -/
theorem c4_merge_last_wins :
    (∀ (m newLinks : List Link) (h : String),
      mapLookup (mergeLinks m newLinks) h =
        match lastWithHref newLinks h with
        | some r => some r
        | none => mapLookup m h) ∧
    (∀ (m newLinks : List Link) (h : String),
      mapHas m h = true → mapHas (mergeLinks m newLinks) h = true) := by
  refine ⟨fun m newLinks h => mergeLinks_lookup h newLinks m, ?_⟩
  intro m newLinks h hm
  rw [mapHas_iff_lookup] at hm ⊢
  rw [mergeLinks_lookup h newLinks m]
  cases lastWithHref newLinks h with
  | some r => rfl
  | none => exact hm

theorem c4_counterexample :
    extractCurrentLinks (pmRelabel.links 0) = [{ href := "/a", text := "A" }] ∧
    (expFinal pmRelabel {}).linkMap = [{ href := "/a", text := "B" }] ∧
    ({ href := "/a", text := "A" } : Link) ≠ { href := "/a", text := "B" } := by
  exact ⟨by decide, by decide, by decide⟩

theorem contains_false_not_mem (a : String) :
    ∀ l : List String, l.contains a = false → a ∉ l := by
  intro l
  induction l with
  | nil => intro _ hm; cases hm
  | cons b rest ih =>
    intro h hm
    simp only [List.contains, List.elem] at h
    rcases List.mem_cons.mp hm with hab | hr
    · subst hab
      simp at h
    · cases hab : a == b with
      | true =>
        rw [hab] at h
        exact Bool.true_eq_false.mp h
      | false =>
        rw [hab] at h
        exact ih h hr

theorem firstClickInElems_not_mem (clicked : List String) (sel : String) :
    ∀ es : List Elem, ∀ id : String,
      firstClickInElems clicked sel es = some id → clicked.contains id = false := by
  intro es
  induction es with
  | nil => intro id h; simp [firstClickInElems] at h
  | cons e rest ih =>
    intro id h
    unfold firstClickInElems at h
    by_cases hc : clicked.contains (elemId sel e) = true
    · rw [if_pos hc] at h
      exact ih id h
    · rw [if_neg hc] at h
      rw [Bool.not_eq_true] at hc
      by_cases hv : (!e.visible) = true
      · rw [if_pos hv] at h
        exact ih id h
      · rw [if_neg hv] at h
        by_cases hk : e.clickable = true
        · rw [if_pos hk] at h
          rw [← Option.some.inj h]
          exact hc
        · rw [if_neg hk] at h
          exact ih id h

theorem findClick_not_mem (pm : PageModel) (s : Nat) (clicked : List String) :
    ∀ sels : List String, ∀ id : String,
      findClick pm s clicked sels = some id → clicked.contains id = false := by
  intro sels
  induction sels with
  | nil => intro id h; simp [findClick] at h
  | cons sel rest ih =>
    intro id h
    unfold findClick at h
    cases hf : firstClickInElems clicked sel (pm.query s sel) with
    | some i =>
      rw [hf] at h
      rw [← Option.some.inj h]
      exact firstClickInElems_not_mem clicked sel (pm.query s sel) i hf
    | none =>
      rw [hf] at h
      exact ih id h

theorem expandLoop_click_invariant (pm : PageModel) (sels : List String) :
    ∀ (fuel : Nat) (st : ExpState), st.clicked.Nodup →
      st.interactionCount = st.clicked.length →
      ((expandLoop pm sels fuel st).1.clicked.Nodup ∧
        (expandLoop pm sels fuel st).1.interactionCount =
          (expandLoop pm sels fuel st).1.clicked.length) := by
  intro fuel
  induction fuel with
  | zero => intro st h1 h2; exact ⟨h1, h2⟩
  | succ n ih =>
    intro st h1 h2
    rw [expandLoop]
    cases hf : findClick pm st.page st.clicked sels with
    | some id =>
      simp only []
      have hmem : id ∉ st.clicked :=
        contains_false_not_mem id st.clicked
          (findClick_not_mem pm st.page st.clicked sels id hf)
      refine ih _ ?_ ?_
      · simp only [List.nodup_append]
        exact ⟨h1, List.nodup_singleton _, by
          intro x hx
          simp only [List.mem_singleton]
          intro hxid
          subst hxid
          exact hmem hx⟩
      · simp [h2]
    | none =>
      by_cases hce : 2 ≤ st.consecutiveEmpty + 1
      · simp only [if_pos hce]
        exact ⟨h1, h2⟩
      · simp only [if_neg hce]
        exact ih _ h1 h2

/-- C5: after a full tree-expansion run no structural element identity
(selector combined with DOM path) appears twice in the clicked-identity
sequence, and the reported `interactionCount` equals the number of distinct
identities clicked. An identity already recorded is skipped by
`firstClickInElems`, so it is never clicked again. -/
theorem c5_no_double_click (pm : PageModel) (o : TreeScraperOptionsM) :
    (expFinal pm o).clicked.Nodup ∧
    (expFinal pm o).interactionCount = (expFinal pm o).clicked.length := by
  unfold expFinal extractLinksWithTreeExpansionM
  exact expandLoop_click_invariant pm (DEFAULT_SELECTORS ++ o.customSelectors)
    (effMaxIterations o.maxIterations) _ (by simp) (by simp)

theorem expandLoop_succ_some (pm : PageModel) (sels : List String) (n : Nat)
    (st : ExpState) (id : String)
    (hf : findClick pm st.page st.clicked sels = some id) :
    expandLoop pm sels (n + 1) st =
      ((expandLoop pm sels n
          { page := pm.next st.page id,
            linkMap := mergeLinks st.linkMap
              (extractCurrentLinks (pm.links (pm.next st.page id))),
            clicked := st.clicked ++ [id],
            interactionCount := st.interactionCount + 1,
            consecutiveEmpty := 0 }).1,
        true :: (expandLoop pm sels n
          { page := pm.next st.page id,
            linkMap := mergeLinks st.linkMap
              (extractCurrentLinks (pm.links (pm.next st.page id))),
            clicked := st.clicked ++ [id],
            interactionCount := st.interactionCount + 1,
            consecutiveEmpty := 0 }).2) := by
  rw [expandLoop, hf]

theorem expandLoop_succ_none_stop (pm : PageModel) (sels : List String) (n : Nat)
    (st : ExpState) (hf : findClick pm st.page st.clicked sels = none)
    (h2 : 2 ≤ st.consecutiveEmpty + 1) :
    expandLoop pm sels (n + 1) st =
      ({ st with consecutiveEmpty := st.consecutiveEmpty + 1 }, [false]) := by
  rw [expandLoop, hf]
  exact if_pos h2

theorem expandLoop_succ_none_cont (pm : PageModel) (sels : List String) (n : Nat)
    (st : ExpState) (hf : findClick pm st.page st.clicked sels = none)
    (h2 : ¬ 2 ≤ st.consecutiveEmpty + 1) :
    expandLoop pm sels (n + 1) st =
      ((expandLoop pm sels n { st with consecutiveEmpty := st.consecutiveEmpty + 1 }).1,
        false :: (expandLoop pm sels n
          { st with consecutiveEmpty := st.consecutiveEmpty + 1 }).2) := by
  rw [expandLoop, hf]
  exact if_neg h2

theorem expandLoop_trace_len (pm : PageModel) (sels : List String) :
    ∀ (fuel : Nat) (st : ExpState), ((expandLoop pm sels fuel st).2).length ≤ fuel := by
  intro fuel
  induction fuel with
  | zero => intro st; simp [expandLoop]
  | succ n ih =>
    intro st
    cases hf : findClick pm st.page st.clicked sels with
    | some id =>
      rw [expandLoop_succ_some pm sels n st id hf]
      simpa using Nat.succ_le_succ (ih _)
    | none =>
      by_cases hce : 2 ≤ st.consecutiveEmpty + 1
      · rw [expandLoop_succ_none_stop pm sels n st hf hce]
        simp
      · rw [expandLoop_succ_none_cont pm sels n st hf hce]
        simpa using Nat.succ_le_succ (ih _)

theorem expandLoop_stop_from_one (pm : PageModel) (sels : List String)
    (fuel : Nat) (st : ExpState) (hce : st.consecutiveEmpty = 1)
    (h0 : ((expandLoop pm sels fuel st).2)[0]? = some false) :
    (expandLoop pm sels fuel st).2 = [false] := by
  cases fuel with
  | zero => simp [expandLoop] at h0
  | succ n =>
    cases hf : findClick pm st.page st.clicked sels with
    | some id =>
      rw [expandLoop_succ_some pm sels n st id hf] at h0
      simp at h0
    | none =>
      rw [expandLoop_succ_none_stop pm sels n st hf (by omega)]

theorem expandLoop_two_false_end (pm : PageModel) (sels : List String) :
    ∀ (fuel : Nat) (st : ExpState), st.consecutiveEmpty ≤ 1 →
      ∀ i : Nat, ((expandLoop pm sels fuel st).2)[i]? = some false →
        ((expandLoop pm sels fuel st).2)[i + 1]? = some false →
        ((expandLoop pm sels fuel st).2).length = i + 2 := by
  intro fuel
  induction fuel with
  | zero => intro st _ i h1 _; simp [expandLoop] at h1
  | succ n ih =>
    intro st hce i h1 h2
    cases hf : findClick pm st.page st.clicked sels with
    | some id =>
      rw [expandLoop_succ_some pm sels n st id hf] at h1 h2 ⊢
      cases i with
      | zero => simp at h1
      | succ j =>
        simp only [List.getElem?_cons_succ] at h1 h2
        have := ih _ (by simp) j h1 h2
        simpa using this
    | none =>
      by_cases hstop : 2 ≤ st.consecutiveEmpty + 1
      · rw [expandLoop_succ_none_stop pm sels n st hf hstop] at h1 h2 ⊢
        cases i with
        | zero => simp at h2
        | succ j => simp at h1
      · have hze : st.consecutiveEmpty = 0 := by omega
        rw [expandLoop_succ_none_cont pm sels n st hf hstop] at h1 h2 ⊢
        cases i with
        | zero =>
          simp only [List.getElem?_cons_succ] at h2
          have := expandLoop_stop_from_one pm sels n _ (by simp [hze]) h2
          simp [this]
        | succ j =>
          simp only [List.getElem?_cons_succ] at h1 h2
          have := ih _ (by simp [hze]) j h1 h2
          simpa using this

theorem expandLoop_early_end (pm : PageModel) (sels : List String) :
    ∀ (fuel : Nat) (st : ExpState), st.consecutiveEmpty ≤ 1 →
      ((expandLoop pm sels fuel st).2).length < fuel →
      (∃ m : Nat, ((expandLoop pm sels fuel st).2).length = m + 2 ∧
        ((expandLoop pm sels fuel st).2)[m]? = some false ∧
        ((expandLoop pm sels fuel st).2)[m + 1]? = some false) ∨
      (st.consecutiveEmpty = 1 ∧ (expandLoop pm sels fuel st).2 = [false]) := by
  intro fuel
  induction fuel with
  | zero => intro st _ h; omega
  | succ n ih =>
    intro st hce hlen
    cases hf : findClick pm st.page st.clicked sels with
    | some id =>
      rw [expandLoop_succ_some pm sels n st id hf] at hlen ⊢
      simp only [List.length_cons] at hlen
      have hrec := ih
        { page := pm.next st.page id,
          linkMap := mergeLinks st.linkMap
            (extractCurrentLinks (pm.links (pm.next st.page id))),
          clicked := st.clicked ++ [id],
          interactionCount := st.interactionCount + 1,
          consecutiveEmpty := 0 } (by simp) (by omega)
      rcases hrec with ⟨m, hm, ha, hb⟩ | ⟨hbad, _⟩
      · refine Or.inl ⟨m + 1, ?_, by simpa using ha, by simpa using hb⟩
        simp only [List.length_cons, hm]
      · simp at hbad
    | none =>
      by_cases hstop : 2 ≤ st.consecutiveEmpty + 1
      · rw [expandLoop_succ_none_stop pm sels n st hf hstop]
        exact Or.inr ⟨by omega, rfl⟩
      · have hze : st.consecutiveEmpty = 0 := by omega
        rw [expandLoop_succ_none_cont pm sels n st hf hstop] at hlen ⊢
        simp only [List.length_cons] at hlen
        have hrec := ih { st with consecutiveEmpty := st.consecutiveEmpty + 1 }
          (by simp [hze]) (by omega)
        rcases hrec with ⟨m, hm, ha, hb⟩ | ⟨_, htr⟩
        · refine Or.inl ⟨m + 1, ?_, by simpa using ha, by simpa using hb⟩
          simp only [List.length_cons, hm]
        · refine Or.inl ⟨0, ?_, ?_, ?_⟩ <;> simp [htr]

/-- C2: the tree-expansion loop executes at most `maxIterations` outer
iterations and always terminates; any two consecutive empty iterations are
the last two of the run (second conjunct), and an early stop always ends in
exactly two trailing empty iterations (third conjunct) — so a successful
click between empty iterations resets the empty-iteration counter.
`maxIterations = 0` is excluded because the source treats a falsy value as
"use the default 10" (`this.options.maxIterations || 10`). -/
theorem c2_expansion_bounded_terminates (pm : PageModel) (o : TreeScraperOptionsM)
    (h : 0 < o.maxIterations) :
    (expTrace pm o).length ≤ o.maxIterations ∧
    (∀ i : Nat, (expTrace pm o)[i]? = some false →
      (expTrace pm o)[i + 1]? = some false →
      (expTrace pm o).length = i + 2) ∧
    ((expTrace pm o).length < o.maxIterations →
      ∃ m : Nat, (expTrace pm o).length = m + 2 ∧
        (expTrace pm o)[m]? = some false ∧ (expTrace pm o)[m + 1]? = some false) := by
  have heff : effMaxIterations o.maxIterations = o.maxIterations := by
    unfold effMaxIterations
    rw [if_neg (by omega)]
  unfold expTrace extractLinksWithTreeExpansionM
  rw [heff]
  refine ⟨expandLoop_trace_len pm _ o.maxIterations _, ?_, ?_⟩
  · intro i h1 h2
    exact expandLoop_two_false_end pm _ o.maxIterations _ (by simp) i h1 h2
  · intro hlt
    rcases expandLoop_early_end pm _ o.maxIterations _ (by simp) hlt with hok | ⟨hbad, _⟩
    · exact hok
    · simp at hbad

theorem c2_witness :
    0 < 3 ∧
    ((expTrace pmInfinite { maxIterations := 3 }).length ≤ 3 ∧
      (∀ i : Nat, (expTrace pmInfinite { maxIterations := 3 })[i]? = some false →
        (expTrace pmInfinite { maxIterations := 3 })[i + 1]? = some false →
        (expTrace pmInfinite { maxIterations := 3 }).length = i + 2) ∧
      ((expTrace pmInfinite { maxIterations := 3 }).length < 3 →
        ∃ m : Nat, (expTrace pmInfinite { maxIterations := 3 }).length = m + 2 ∧
          (expTrace pmInfinite { maxIterations := 3 })[m]? = some false ∧
          (expTrace pmInfinite { maxIterations := 3 })[m + 1]? = some false)) :=
  ⟨by decide, c2_expansion_bounded_terminates pmInfinite { maxIterations := 3 } (by decide)⟩

/-- C6 (amended): a normal tree-scrape result reports confidence `0.9` when
`interactionCount > 0` and `0.5` otherwise; the download-triggered terminal
outcome is a success with zero links, zero interactions and `complete`
true, but its confidence is `0.8`, not the `0.5` the two-value rule would
give. -/
theorem c6_confidence_values :
    (∀ (pm : PageModel) (o : TreeScraperOptionsM),
      (treeScrapeSuccessResult pm o).strategy.confidence =
        if 0 < (treeScrapeSuccessResult pm o).metrics.interactionCount then (9 : ℚ)/10
        else (5 : ℚ)/10) ∧
    treeScrapeDownloadResult.links = [] ∧
    treeScrapeDownloadResult.metrics.linkCount = 0 ∧
    treeScrapeDownloadResult.metrics.interactionCount = 0 ∧
    treeScrapeDownloadResult.metrics.complete = true ∧
    treeScrapeDownloadResult.strategy.confidence = (8 : ℚ)/10 := by
  exact ⟨fun pm o => rfl, rfl, rfl, rfl, rfl, rfl⟩

theorem c6_counterexample :
    treeScrapeDownloadResult.metrics.interactionCount = 0 ∧
    treeScrapeDownloadResult.strategy.confidence ≠ (5 : ℚ)/10 := by
  refine ⟨rfl, ?_⟩
  show (8 : ℚ)/10 ≠ (5 : ℚ)/10
  norm_num

/-- C7 (amended): `TreeScraper.scrape` writes its result to the cache with
TTL `Math.floor(cacheExpiry / 1000)` seconds whenever the `cache` option is
not `false`; a caller-specified `cacheExpiry` of 0 is falsy, so it falls
back to the 300000 ms default instead of disabling caching — only
`cache: false` disables the write. -/
theorem c7_cache_write_ttl :
    (∀ o : ScrapeOptsM, cacheWriteTTL o =
      if o.cache = some false then none else some (effCacheExpiry o / 1000)) ∧
    (∀ c n, effCacheExpiry { cache := c, cacheExpiry := some n } =
      if n = 0 then 300000 else n) ∧
    (∀ c, effCacheExpiry { cache := c, cacheExpiry := none } = 300000) := by
  refine ⟨?_, fun c n => rfl, fun c => rfl⟩
  intro o
  unfold cacheWriteTTL cacheEnabled
  rcases o with ⟨c, e⟩
  rcases c with _ | b
  · rfl
  · rcases b <;> rfl

theorem c7_counterexample :
    cacheWriteTTL { cacheExpiry := some 0 } = some 300 ∧
    effCacheExpiry { cacheExpiry := some 0 } = 300000 := ⟨rfl, rfl⟩

/-- C8 (amended): the tree-scraper cache key is a deterministic function of
the URL, the effective `maxIterations` and the effective `clickDelay`; keys
with `maxIterations` 3 and 5 never collide for any URL and click delay; but
`customSelectors` (like `handleExclusive` and `headless`) is not part of the
key, so option combinations differing only there collide (see the
counterexample). -/
theorem c8_cache_key_sensitivity :
    (∀ (url : String) (o1 o2 : TreeScraperOptionsM),
      effMaxIterations o1.maxIterations = effMaxIterations o2.maxIterations →
      effClickDelay o1.clickDelay = effClickDelay o2.clickDelay →
      getTreeCacheKey url o1 = getTreeCacheKey url o2) ∧
    (∀ (url : String) (cd : Nat),
      getTreeCacheKey url { maxIterations := 3, clickDelay := cd } ≠
        getTreeCacheKey url { maxIterations := 5, clickDelay := cd }) := by
  constructor
  · intro url o1 o2 h1 h2
    unfold getTreeCacheKey
    rw [h1, h2]
  · intro url cd heq
    unfold getTreeCacheKey at heq
    have hdata := congrArg String.data heq
    simp only [strData_append] at hdata
    rw [List.append_assoc, List.append_assoc, List.append_assoc, List.append_assoc,
      List.append_assoc, List.append_assoc, List.append_assoc, List.append_assoc] at hdata
    have h1 := List.append_cancel_left hdata
    have h2 := List.append_cancel_left h1
    simp only [show effMaxIterations (3 : Nat) = 3 from rfl,
      show effMaxIterations (5 : Nat) = 5 from rfl] at h2
    have h3 := List.append_cancel_left h2
    rw [show (toString (3 : Nat)).data = [Char.ofNat 51] from rfl,
      show (toString (5 : Nat)).data = [Char.ofNat 53] from rfl] at h3
    simp at h3

theorem c8_counterexample :
    getTreeCacheKey "https://example.com" { customSelectors := ["li.x"] } =
      getTreeCacheKey "https://example.com" {} ∧
    (expFinal pmCustomOnly { customSelectors := ["li.x"] }).interactionCount = 1 ∧
    (expFinal pmCustomOnly {}).interactionCount = 0 := ⟨rfl, by decide, by decide⟩

theorem c4_witness :
    mapLookup (mergeLinks [{ href := "/a", text := "A" }] [{ href := "/a", text := "B" }])
        "/a" =
      (match lastWithHref [{ href := "/a", text := "B" }] "/a" with
        | some r => some r
        | none => mapLookup [{ href := "/a", text := "A" }] "/a") ∧
    mapHas (mergeLinks [{ href := "/a", text := "A" }] [{ href := "/a", text := "B" }])
        "/a" = true :=
  ⟨c4_merge_last_wins.1 [{ href := "/a", text := "A" }] [{ href := "/a", text := "B" }] "/a",
    c4_merge_last_wins.2 [{ href := "/a", text := "A" }] [{ href := "/a", text := "B" }] "/a"
      (by decide)⟩

theorem c8_witness :
    getTreeCacheKey "https://example.com" { maxIterations := 3, clickDelay := 500 } ≠
      getTreeCacheKey "https://example.com" { maxIterations := 5, clickDelay := 500 } :=
  c8_cache_key_sensitivity.2 "https://example.com" 500
